import Mathlib

/-!
# Verification of the hierarchical discovery and traversal engine

This file embeds, as Lean definitions, the algorithmic core of the
`notion-cli` hierarchical resource discovery engine:

* the cursor-pagination loops of `fetchBlocksAtLevel`
  (`commands/page.ts`) and of the search loop inside
  `integrationPagesCommand`;
* the concurrent recursive subtree fetcher `fetchBlocksRecursive`
  (`commands/page.ts`), modelled as an explicit event-loop simulation
  parameterised by a scheduler that decides which outstanding level
  fetch resolves next;
* the root-inference filter `rootPages` of `integrationPagesCommand`.

Theorems about these definitions settle the specification's claims on
pagination exhaustion, traversal ordering, depth tagging, opaque
boundaries, fail-fast error propagation and root inference.
-/

/-- A Notion block as consumed by the traversal code: its `id`, its
`type` tag (e.g. `"paragraph"`, `"child_page"`, `"child_database"`)
and its `has_children` flag.  The remaining fields of the remote
object are irrelevant to the engine and omitted. -/
structure NotionBlock where
  id : String
  type : String
  has_children : Bool
deriving DecidableEq

/-- One response envelope of `notion.blocks.retrieveChildren`:
`{ results, has_more, next_cursor }`. -/
structure BlocksResponse where
  results : List NotionBlock
  has_more : Bool
  next_cursor : Option String
deriving DecidableEq

/-- Error taxonomy of the engine.  Modelled from the spec: the typed
errors raised by the Resource Client Façade (the per-endpoint client
functions are outside the embedded sources); only their identity
matters to the propagation proofs. -/
inductive NotionErr where
  | transport
  | auth
  | notFound
  | rateLimit
  | validation
  | unknownRemote
deriving DecidableEq

/-- Parent reference of a page.  Modelled from the spec: the
discriminated union `ParentReference` over
`{workspace, pageId, containerId, blockId}` (the generated
`shared/types.ts` holding `PageParent` is not among the embedded
sources); the code distinguishes the two container variants
`database_id` and `data_source_id`, so both appear. -/
inductive PageParent where
  | workspace
  | page_id (id : String)
  | database_id (id : String)
  | data_source_id (id : String)
  | block_id (id : String)
deriving DecidableEq

/-- A Notion page as consumed by `integrationPagesCommand`: its `id`,
its `object` discriminator (search returns mixed objects and the loop
keeps only `object === "page"`), and its `parent`. -/
structure NotionPage where
  id : String
  object : String
  parent : PageParent
deriving DecidableEq

/-- One response envelope of `notion.search`. -/
structure SearchResponse where
  results : List NotionPage
  has_more : Bool
  next_cursor : Option String
deriving DecidableEq

/-! ## Cursor pagination (`fetchBlocksAtLevel`, search loop)

Both loops have the shape

```ts
do {
  const response = await ...;
  ...push response.results...
  cursor = response.has_more ? (response.next_cursor ?? undefined) : undefined;
} while (cursor);
```

We model a run of the loop over the finite sequence of responses the
server hands back: the `n`-th iteration consumes the `n`-th response.
`continuesB`/`continuesS` embed the JavaScript truthiness test
`while (cursor)` applied to
`cursor = has_more ? (next_cursor ?? undefined) : undefined`:
the loop continues iff `has_more` is set and `next_cursor` is a
non-null, non-empty string. -/

/-- Truthiness of the cursor computed at the end of one iteration of
the block-children loop. -/
def continuesB (r : BlocksResponse) : Bool :=
  match (if r.has_more then r.next_cursor else none) with
  | some s => !(s == "")
  | none => false

/-- `fetchBlocksAtLevel` (commands/page.ts, lines 86–105): consume the
response stream, tagging every block of every consumed page with the
`depth` of this level (the `_depth` field set on each block), until
the cursor is falsy. -/
def fetchBlocksAtLevel (depth : Nat) : List BlocksResponse → List (NotionBlock × Nat)
  | [] => []
  | r :: rest =>
    let tagged := r.results.map (fun b => (b, depth))
    if continuesB r then tagged ++ fetchBlocksAtLevel depth rest else tagged

/-- A response stream is well paged when every response before the
last one lets the loop continue (the last page of a real paging, with
`has_more = false`, ends the loop; a final page that would continue is
also allowed since the stream ends there anyway). -/
def wellPaged : List BlocksResponse → Bool
  | [] => true
  | [_] => true
  | r :: rest => continuesB r && wellPaged rest

/-- Fallible variant of `fetchBlocksAtLevel`: a rejected request
anywhere in the stream aborts the whole loop with that error
(the `await` rethrows and no block list is produced). -/
def fetchBlocksAtLevelE (depth : Nat) :
    List (Except NotionErr BlocksResponse) → Except NotionErr (List (NotionBlock × Nat))
  | [] => .ok []
  | .error e :: _ => .error e
  | .ok r :: rest =>
    let tagged := r.results.map (fun b => (b, depth))
    if continuesB r then
      match fetchBlocksAtLevelE depth rest with
      | .error e => .error e
      | .ok more => .ok (tagged ++ more)
    else .ok tagged

/-- Truthiness of the cursor for the search loop of
`integrationPagesCommand`. -/
def continuesS (r : SearchResponse) : Bool :=
  match (if r.has_more then r.next_cursor else none) with
  | some s => !(s == "")
  | none => false

/-- The search pagination loop of `integrationPagesCommand`: push
every result whose `object` is `"page"`, follow the cursor until it is
falsy. -/
def searchAllPages : List SearchResponse → List NotionPage
  | [] => []
  | r :: rest =>
    let pages := r.results.filter (fun p => p.object == "page")
    if continuesS r then pages ++ searchAllPages rest else pages

/-- A search-response stream is well paged when every response before
the last one lets the loop continue. -/
def wellPagedS : List SearchResponse → Bool
  | [] => true
  | [_] => true
  | r :: rest => continuesS r && wellPagedS rest

/-- Fallible variant of the search loop. -/
def searchAllPagesE :
    List (Except NotionErr SearchResponse) → Except NotionErr (List NotionPage)
  | [] => .ok []
  | .error e :: _ => .error e
  | .ok r :: rest =>
    let pages := r.results.filter (fun p => p.object == "page")
    if continuesS r then
      match searchAllPagesE rest with
      | .error e => .error e
      | .ok more => .ok (pages ++ more)
    else .ok pages

/-! ## Root inference (`integrationPagesCommand`) -/

/-- `const visibleIds = new Set(allPages.map((p) => p.id))` — the set
of all page IDs observed while exhausting the flat listing. -/
def visibleIds (pages : List NotionPage) : List String :=
  pages.map (fun p => p.id)

/-- The root predicate of `integrationPagesCommand`
(src/unnamed/part_006, `rootPages` filter):

```ts
if (page.parent.type === "workspace") return true;
if (page.parent.type === "page_id" && page.parent.page_id)
  return !visibleIds.has(page.parent.page_id);
if (page.parent.type === "database_id" || page.parent.type === "data_source_id") return false;
return false;
```

The JavaScript truthiness test on `page.parent.page_id` is embedded as
the id being non-empty. -/
def isRoot (visible : List String) (page : NotionPage) : Bool :=
  match page.parent with
  | .workspace => true
  | .page_id pid => if pid == "" then false else !(visible.contains pid)
  | .database_id _ => false
  | .data_source_id _ => false
  | .block_id _ => false

/-- `rootPages`: the pages of the exhausted listing whose parent is
the workspace or a page the integration cannot see. -/
def rootPages (pages : List NotionPage) : List NotionPage :=
  pages.filter (isRoot (visibleIds pages))

/-- The whole `integrationPagesCommand` pipeline up to the root set:
exhaust the search listing, then filter roots; a failure of any page
of the listing aborts the command before any root is produced
(the surrounding `try`/`catch` prints the error and exits). -/
def integrationRoots
    (responses : List (Except NotionErr SearchResponse)) :
    Except NotionErr (List NotionPage) :=
  match searchAllPagesE responses with
  | .error e => .error e
  | .ok pages => .ok (rootPages pages)

/-! ## The concurrent recursive subtree fetcher (`fetchBlocksRecursive`)

`fetchBlocksRecursive` (commands/page.ts, lines 107–123):

```ts
const allBlocks: NotionBlock[] = [];
async function fetchBlocksRecursive(blockId, depth = 0) {
  const blocks = await fetchBlocksAtLevel(blockId, depth);
  allBlocks.push(...blocks);
  const blocksToRecurse = blocks.filter((block) => {
    const isChildPage = block.type === "child_page" || block.type === "child_database";
    return block.has_children && !isChildPage;
  });
  if (blocksToRecurse.length > 0) {
    await Promise.all(blocksToRecurse.map((block) => fetchBlocksRecursive(block.id, depth + 1)));
  }
}
```

Every recursive call suspends on its level fetch (network I/O), then —
in the single-threaded event loop — atomically appends its level's
blocks to the shared `allBlocks` array and starts one recursive call
per recursable child.  The calls launched by `Promise.all` are
outstanding concurrently, and the order in which they resume is the
order in which their network requests happen to resolve.

We therefore simulate the event loop explicitly: the state holds the
list of outstanding calls (each one a block id plus the depth it was
launched at) and the shared accumulator; at every step a scheduler
picks which outstanding level fetch resolves next.  `env` maps a block
id to the (already exhausted, see `fetchBlocksAtLevel`) list of its
direct children, or to the error its fetch rejects with.  Fuel bounds
the simulation; a run that exhausts its fuel yields `none` and is
never treated as a completed traversal. -/

/-- One outstanding `fetchBlocksRecursive(blockId, depth)` call whose
`fetchBlocksAtLevel` request is in flight. -/
structure FetchCall where
  id : String
  depth : Nat
deriving DecidableEq

/-- `blocksToRecurse` filter of `fetchBlocksRecursive`: recurse iff
`has_children` and the block is not a child page / child database. -/
def isChildPage (b : NotionBlock) : Bool :=
  b.type == "child_page" || b.type == "child_database"

/-- The recursion predicate `block.has_children && !isChildPage`. -/
def shouldRecurse (b : NotionBlock) : Bool :=
  b.has_children && !(isChildPage b)

/-- `blocks.filter(...)` — the recursable children of one level. -/
def blocksToRecurse (blocks : List NotionBlock) : List NotionBlock :=
  blocks.filter shouldRecurse

/-- Event-loop simulation of the family of concurrent
`fetchBlocksRecursive` calls.  `sched step % pending.length` selects
which outstanding level fetch resolves at this step; the resolved call
appends its tagged blocks to the shared accumulator and launches one
call per recursable child at `depth + 1`.  Result: `none` when fuel
runs out, `some (.error e)` when a level fetch rejects (the rejection
propagates through the `Promise.all` chain and the whole traversal
rejects), `some (.ok allBlocks)` when no call is outstanding. -/
def runFetchAux (env : String → Except NotionErr (List NotionBlock)) (sched : Nat → Nat) :
    Nat → Nat → List FetchCall → List (NotionBlock × Nat) →
    Option (Except NotionErr (List (NotionBlock × Nat)))
  | _, _, [], acc => some (.ok acc)
  | 0, _, _ :: _, _ => none
  | fuel + 1, step, p :: ps, acc =>
    let pending := p :: ps
    let i := sched step % pending.length
    let c := pending.getD i ⟨"", 0⟩
    match env c.id with
    | .error e => some (.error e)
    | .ok blocks =>
      runFetchAux env sched fuel (step + 1)
        (pending.take i ++ pending.drop (i + 1)
          ++ (blocksToRecurse blocks).map (fun b => ⟨b.id, c.depth + 1⟩))
        (acc ++ blocks.map (fun b => (b, c.depth)))

/-- `await fetchBlocksRecursive(pageId)`: the simulation started from
the single root call at depth 0 with an empty accumulator. -/
def fetchBlocksRecursive (env : String → Except NotionErr (List NotionBlock))
    (sched : Nat → Nat) (fuel : Nat) (rootId : String) :
    Option (Except NotionErr (List (NotionBlock × Nat))) :=
  runFetchAux env sched fuel 0 [⟨rootId, 0⟩] []

/-- Modelled from the spec: the deterministic pre-order traversal that
§4.2 prescribes — each recursable child's subtree is merged at the
position immediately following that child.  Used only to compare the
code's output against the specified ordering. -/
def specPreorderFetch (env : String → Except NotionErr (List NotionBlock)) :
    Nat → String → Nat → List (NotionBlock × Nat)
  | 0, _, _ => []
  | fuel + 1, id, depth =>
    match env id with
    | .error _ => []
    | .ok blocks =>
      blocks.flatMap (fun b =>
        (b, depth) ::
          (if shouldRecurse b then specPreorderFetch env fuel b.id (depth + 1) else []))

/-! ## Concrete instances used by the counterexamples and witnesses -/

/-- Sibling block `a` (recursable). -/
def blkA : NotionBlock := ⟨"a", "paragraph", true⟩
/-- Sibling block `b` (recursable). -/
def blkB : NotionBlock := ⟨"b", "paragraph", true⟩
/-- Sibling block `c` (recursable). -/
def blkC : NotionBlock := ⟨"c", "paragraph", true⟩
/-- Leaf child of `a`. -/
def blkA1 : NotionBlock := ⟨"a1", "paragraph", false⟩
/-- Leaf child of `b`. -/
def blkB1 : NotionBlock := ⟨"b1", "paragraph", false⟩
/-- An opaque child page with children of its own. -/
def blkCP : NotionBlock := ⟨"cp", "child_page", true⟩
/-- A block nested inside the opaque child page. -/
def blkX0 : NotionBlock := ⟨"x0", "paragraph", false⟩

/-- A page tree with two recursable sibling subtrees:
`root → [a, b]`, `a → [a1]`, `b → [b1]`. -/
def envTwoSubtrees : String → Except NotionErr (List NotionBlock) := fun s =>
  if s = "root" then .ok [blkA, blkB]
  else if s = "a" then .ok [blkA1]
  else if s = "b" then .ok [blkB1]
  else .ok []

/-- A page with three concurrently fetched sibling subtrees where the
fetch of `c`'s children rejects with `NotFoundError`. -/
def envOneFailing : String → Except NotionErr (List NotionBlock) := fun s =>
  if s = "root" then .ok [blkA, blkB, blkC]
  else if s = "c" then .error .notFound
  else .ok []

/-- A page whose only direct block is an opaque child page that itself
has children. -/
def envOpaqueChild : String → Except NotionErr (List NotionBlock) := fun s =>
  if s = "root" then .ok [blkCP]
  else if s = "cp" then .ok [blkX0]
  else .ok []

/-- A linear page tree `root → [a]`, `a → [a1]` used by the depth
witness. -/
def envChain : String → Except NotionErr (List NotionBlock) := fun s =>
  if s = "root" then .ok [blkA]
  else if s = "a" then .ok [blkA1]
  else .ok []

/-- Completion order in which earlier-launched fetches resolve first. -/
def schedFIFO : Nat → Nat := fun _ => 0

/-- Completion order in which, at the step after the root level is
pushed, the later-launched sibling fetch resolves first. -/
def schedLate : Nat → Nat := fun step => if step = 1 then 1 else 0

/-! ## Lemmas about the pagination loops -/

/-- One-step unfolding of the block-children loop. -/
theorem fetchBlocksAtLevel_cons (depth : Nat) (r : BlocksResponse)
    (rest : List BlocksResponse) :
    fetchBlocksAtLevel depth (r :: rest)
      = (if continuesB r then
          r.results.map (fun b => (b, depth)) ++ fetchBlocksAtLevel depth rest
         else r.results.map (fun b => (b, depth))) := rfl

/-- One-step unfolding of the search loop. -/
theorem searchAllPages_cons (r : SearchResponse) (rest : List SearchResponse) :
    searchAllPages (r :: rest)
      = (if continuesS r then
          r.results.filter (fun p => p.object == "page") ++ searchAllPages rest
         else r.results.filter (fun p => p.object == "page")) := rfl

/-- A well-paged response stream is consumed in full: the loop returns
the concatenation of all pages' results, in page order, tagged with
the level's depth. -/
theorem fetchBlocksAtLevel_eq_flatMap (depth : Nat) :
    ∀ rs : List BlocksResponse, wellPaged rs = true →
      fetchBlocksAtLevel depth rs
        = (rs.flatMap (fun r => r.results)).map (fun b => (b, depth)) := by
  intro rs
  induction rs with
  | nil => intro _; rfl
  | cons r rest ih =>
    intro h
    cases rest with
    | nil =>
      rw [fetchBlocksAtLevel_cons]
      split <;> simp [fetchBlocksAtLevel]
    | cons r' rest' =>
      have h' : continuesB r = true ∧ wellPaged (r' :: rest') = true := by
        simpa [wellPaged, Bool.and_eq_true] using h
      rw [fetchBlocksAtLevel_cons, if_pos h'.1, ih h'.2]
      simp [List.flatMap_cons]

/-- A well-paged search stream is consumed in full: the loop returns
all pages (objects tagged `"page"`) of all responses, in response
order. -/
theorem searchAllPages_eq_flatMap :
    ∀ ss : List SearchResponse, wellPagedS ss = true →
      searchAllPages ss
        = (ss.flatMap (fun r => r.results)).filter (fun p => p.object == "page") := by
  intro ss
  induction ss with
  | nil => intro _; rfl
  | cons r rest ih =>
    intro h
    cases rest with
    | nil =>
      rw [searchAllPages_cons]
      split <;> simp [searchAllPages]
    | cons r' rest' =>
      have h' : continuesS r = true ∧ wellPagedS (r' :: rest') = true := by
        simpa [wellPagedS, Bool.and_eq_true] using h
      rw [searchAllPages_cons, if_pos h'.1, ih h'.2]
      simp [List.flatMap_cons, List.filter_append]

/-- An error anywhere in the portion of the stream the loop reaches
aborts the block-children loop with exactly that error. -/
theorem fetchBlocksAtLevelE_error (depth : Nat) (e : NotionErr)
    (rest : List (Except NotionErr BlocksResponse)) :
    ∀ good : List BlocksResponse, (∀ r ∈ good, continuesB r = true) →
      fetchBlocksAtLevelE depth (good.map .ok ++ .error e :: rest) = .error e := by
  intro good
  induction good with
  | nil => intro _; rfl
  | cons r g ih =>
    intro h
    have hr : continuesB r = true := h r (List.mem_cons_self r g)
    have hg : ∀ x ∈ g, continuesB x = true := fun x hx => h x (List.mem_cons_of_mem r hx)
    have hrec := ih hg
    show (if continuesB r then
        match fetchBlocksAtLevelE depth (g.map .ok ++ .error e :: rest) with
        | .error e => .error e
        | .ok more => .ok (r.results.map (fun b => (b, depth)) ++ more)
      else .ok (r.results.map (fun b => (b, depth)))) = Except.error e
    rw [if_pos hr, hrec]

/-- An error anywhere in the portion of the stream the loop reaches
aborts the search loop with exactly that error. -/
theorem searchAllPagesE_error (e : NotionErr)
    (rest : List (Except NotionErr SearchResponse)) :
    ∀ good : List SearchResponse, (∀ r ∈ good, continuesS r = true) →
      searchAllPagesE (good.map .ok ++ .error e :: rest) = .error e := by
  intro good
  induction good with
  | nil => intro _; rfl
  | cons r g ih =>
    intro h
    have hr : continuesS r = true := h r (List.mem_cons_self r g)
    have hg : ∀ x ∈ g, continuesS x = true := fun x hx => h x (List.mem_cons_of_mem r hx)
    have hrec := ih hg
    show (if continuesS r then
        match searchAllPagesE (g.map .ok ++ .error e :: rest) with
        | .error e => .error e
        | .ok more => .ok (r.results.filter (fun p => p.object == "page") ++ more)
      else .ok (r.results.filter (fun p => p.object == "page"))) = Except.error e
    rw [if_pos hr, hrec]

/-! ## Claims about pagination and root inference -/

/-- Claim C4: over a remote collection split into pages with stable
ordering, the cursor loops yield exactly the items of all pages — each
one exactly once, concatenated in the order the pages were returned —
starting with no cursor and following `nextCursor` while `hasMore`. -/
theorem pagination_exhaustion (depth : Nat) (rs : List BlocksResponse)
    (ss : List SearchResponse)
    (hrs : wellPaged rs = true) (hss : wellPagedS ss = true) :
    fetchBlocksAtLevel depth rs
        = (rs.flatMap (fun r => r.results)).map (fun b => (b, depth))
    ∧ searchAllPages ss
        = (ss.flatMap (fun r => r.results)).filter (fun p => p.object == "page") :=
  ⟨fetchBlocksAtLevel_eq_flatMap depth rs hrs, searchAllPages_eq_flatMap ss hss⟩

/-- Witness for claim C4: a 5-item collection split across three pages
is fetched in full, in page order. -/
theorem pagination_exhaustion_witness :
    wellPaged [⟨[blkA, blkB], true, some "c1"⟩, ⟨[blkC, blkA1], true, some "c2"⟩,
        ⟨[blkB1], false, none⟩] = true
    ∧ fetchBlocksAtLevel 0 [⟨[blkA, blkB], true, some "c1"⟩,
        ⟨[blkC, blkA1], true, some "c2"⟩, ⟨[blkB1], false, none⟩]
        = (([⟨[blkA, blkB], true, some "c1"⟩, ⟨[blkC, blkA1], true, some "c2"⟩,
            ⟨[blkB1], false, none⟩] : List BlocksResponse).flatMap
              (fun r => r.results)).map (fun b => (b, 0)) :=
  ⟨by decide,
    (pagination_exhaustion 0 _ [⟨[], false, none⟩] (by decide) (by decide)).1⟩

/-- Claim C10: when a response violates the envelope invariant by
reporting `has_more = true` together with a null `next_cursor`, both
loops treat the null cursor as exhaustion: they stop right after that
page (its items are kept, every later response is ignored), so each
loop is a total function of its finite response sequence. -/
theorem null_cursor_terminates (depth : Nat) (r : BlocksResponse)
    (rest : List BlocksResponse) (s : SearchResponse) (srest : List SearchResponse)
    (hr1 : r.has_more = true) (hr2 : r.next_cursor = none)
    (hs1 : s.has_more = true) (hs2 : s.next_cursor = none) :
    fetchBlocksAtLevel depth (r :: rest) = r.results.map (fun b => (b, depth))
    ∧ searchAllPages (s :: srest) = s.results.filter (fun p => p.object == "page") := by
  have hcb : continuesB r = false := by simp [continuesB, hr1, hr2]
  have hcs : continuesS s = false := by simp [continuesS, hs1, hs2]
  exact ⟨by rw [fetchBlocksAtLevel_cons, if_neg (by simp [hcb])],
    by rw [searchAllPages_cons, if_neg (by simp [hcs])]⟩

/-- Witness for claim C10: a malformed first page (`has_more = true`,
no cursor) ends both loops after that page even though more responses
follow. -/
theorem null_cursor_terminates_witness :
    (⟨[blkA], true, none⟩ : BlocksResponse).has_more = true
    ∧ fetchBlocksAtLevel 0 [⟨[blkA], true, none⟩, ⟨[blkB], false, none⟩]
        = [(blkA, 0)]
    ∧ searchAllPages [⟨[⟨"p1", "page", .workspace⟩], true, none⟩,
        ⟨[⟨"p2", "page", .workspace⟩], false, none⟩]
        = [⟨"p1", "page", .workspace⟩] := by
  have h := null_cursor_terminates 0 ⟨[blkA], true, none⟩ [⟨[blkB], false, none⟩]
    ⟨[⟨"p1", "page", .workspace⟩], true, none⟩
    [⟨[⟨"p2", "page", .workspace⟩], false, none⟩] rfl rfl rfl rfl
  exact ⟨rfl, h.1, by rw [h.2]; decide⟩

/-- Claim C8: a failing page request aborts the block-children loop
with the underlying error unwrapped and no partial item sequence, and
the root-inference run likewise yields no partial root set when the
flat listing fails partway through. -/
theorem pagination_error_aborts (depth : Nat)
    (good : List BlocksResponse) (e : NotionErr)
    (rest : List (Except NotionErr BlocksResponse))
    (sgood : List SearchResponse) (e2 : NotionErr)
    (srest : List (Except NotionErr SearchResponse))
    (hg : ∀ r ∈ good, continuesB r = true) (hsg : ∀ r ∈ sgood, continuesS r = true) :
    fetchBlocksAtLevelE depth (good.map .ok ++ .error e :: rest) = .error e
    ∧ integrationRoots (sgood.map .ok ++ .error e2 :: srest) = .error e2 := by
  refine ⟨fetchBlocksAtLevelE_error depth e rest good hg, ?_⟩
  unfold integrationRoots
  rw [searchAllPagesE_error e2 srest sgood hsg]

/-- Witness for claim C8: a rate-limit failure on the second of three
pages aborts both the block fetch and the root inference with that
error. -/
theorem pagination_error_aborts_witness :
    (∀ r ∈ [(⟨[blkA], true, some "c1"⟩ : BlocksResponse)], continuesB r = true)
    ∧ fetchBlocksAtLevelE 0 [.ok ⟨[blkA], true, some "c1"⟩, .error .rateLimit,
        .ok ⟨[blkB], false, none⟩] = .error .rateLimit
    ∧ integrationRoots [.ok ⟨[⟨"p1", "page", .workspace⟩], true, some "c1"⟩,
        .error .rateLimit] = .error .rateLimit := by
  have h := pagination_error_aborts 0 [⟨[blkA], true, some "c1"⟩] .rateLimit
    [.ok ⟨[blkB], false, none⟩] [⟨[⟨"p1", "page", .workspace⟩], true, some "c1"⟩]
    .rateLimit [] (by decide) (by decide)
  exact ⟨by decide, h.1, h.2⟩

/-! ## Claims about root inference -/

/-- Claim C3: a visible page is in the root set iff its parent is the
workspace sentinel, or a page reference whose id is absent from the
visible index; a page whose parent is a database or data-source
container is never a root, even when that container is not visible.
(The well-formedness hypothesis records that a page-reference parent
carries a real, non-empty id, as Notion ids are; the code's truthiness
guard discards an empty id.) -/
theorem rootPages_characterization (pages : List NotionPage) (n : NotionPage)
    (hmem : n ∈ pages)
    (hwf : ∀ pid, n.parent = .page_id pid → pid ≠ "") :
    (n ∈ rootPages pages ↔
      n.parent = .workspace
      ∨ ∃ pid, n.parent = .page_id pid ∧ pid ∉ visibleIds pages)
    ∧ (∀ cid, (n.parent = .database_id cid ∨ n.parent = .data_source_id cid)
        → n ∉ rootPages pages) := by
  constructor
  · rw [rootPages, List.mem_filter]
    cases hp : n.parent with
    | workspace => simp [isRoot, hp, hmem]
    | page_id pid =>
      have hne : pid ≠ "" := hwf pid hp
      simp [isRoot, hp, hmem, hne]
    | database_id cid => simp [isRoot, hp]
    | data_source_id cid => simp [isRoot, hp]
    | block_id bid => simp [isRoot, hp]
  · intro cid hcid hroot
    have h := (List.mem_filter.mp hroot).2
    rcases hcid with hcid | hcid <;> simp [isRoot, hcid] at h

/-- Witness for claim C3: of three visible pages — one workspace
child, one whose parent page is not visible, one inside an invisible
database — exactly the first two are roots. -/
theorem rootPages_characterization_witness :
    ((⟨"p1", "page", .workspace⟩ : NotionPage)
        ∈ [(⟨"p1", "page", .workspace⟩ : NotionPage),
           ⟨"p2", "page", .page_id "hidden"⟩, ⟨"p3", "page", .database_id "db"⟩])
    ∧ (⟨"p1", "page", .workspace⟩ : NotionPage)
        ∈ rootPages [⟨"p1", "page", .workspace⟩,
            ⟨"p2", "page", .page_id "hidden"⟩, ⟨"p3", "page", .database_id "db"⟩]
    ∧ (⟨"p3", "page", .database_id "db"⟩ : NotionPage)
        ∉ rootPages [⟨"p1", "page", .workspace⟩,
            ⟨"p2", "page", .page_id "hidden"⟩, ⟨"p3", "page", .database_id "db"⟩] := by
  refine ⟨by decide, ?_, ?_⟩
  · exact (rootPages_characterization _ _ (by decide) (by simp)).1.mpr (Or.inl rfl)
  · exact (rootPages_characterization _ ⟨"p3", "page", .database_id "db"⟩ (by decide)
      (by simp)).2 "db" (Or.inl rfl)

/-- Claim C9: the root set is a subset of the visible index — every
returned root was itself observed while exhausting the flat listing. -/
theorem rootSet_subset_visibleIndex (pages : List NotionPage) (n : NotionPage)
    (h : n ∈ rootPages pages) : n.id ∈ visibleIds pages :=
  List.mem_map_of_mem (fun p => p.id) (List.mem_filter.mp h).1

/-- Witness for claim C9: the sole root of a one-page listing is in
the visible index. -/
theorem rootSet_subset_visibleIndex_witness :
    (⟨"p1", "page", .workspace⟩ : NotionPage)
        ∈ rootPages [⟨"p1", "page", .workspace⟩]
    ∧ "p1" ∈ visibleIds [(⟨"p1", "page", .workspace⟩ : NotionPage)] :=
  ⟨by decide, rootSet_subset_visibleIndex [⟨"p1", "page", .workspace⟩]
    ⟨"p1", "page", .workspace⟩ (by decide)⟩

/-! ## Lemmas about the event-loop simulation -/

/-- Splitting a list at a valid index: every element is the selected
one or survives its removal. -/
theorem mem_take_drop_or_eq {α : Type} (l : List α) (i : Nat) (hi : i < l.length) :
    ∀ x ∈ l, x = l[i] ∨ x ∈ l.take i ++ l.drop (i + 1) := by
  intro x hx
  rw [← List.take_append_drop i l, List.drop_eq_getElem_cons hi] at hx
  rcases List.mem_append.mp hx with h | h
  · exact Or.inr (List.mem_append_left _ h)
  · rcases List.mem_cons.mp h with h | h
    · exact Or.inl h
    · exact Or.inr (List.mem_append_right _ h)

/-- The accumulator only grows: a completed run extends the
accumulator it started from. -/
theorem runFetchAux_prefix (env : String → Except NotionErr (List NotionBlock))
    (sched : Nat → Nat) :
    ∀ fuel step pending acc out,
      runFetchAux env sched fuel step pending acc = some (.ok out) →
      ∃ rest, out = acc ++ rest := by
  intro fuel
  induction fuel with
  | zero =>
    intro step pending acc out h
    cases pending with
    | nil =>
      refine ⟨[], ?_⟩
      have : acc = out := by simpa [runFetchAux] using h
      simp [← this]
    | cons p ps => simp [runFetchAux] at h
  | succ fuel ih =>
    intro step pending acc out h
    cases pending with
    | nil =>
      refine ⟨[], ?_⟩
      have : acc = out := by simpa [runFetchAux] using h
      simp [← this]
    | cons p ps =>
      simp only [runFetchAux] at h
      set i := sched step % (p :: ps).length with hi
      set c := (p :: ps).getD i ⟨"", 0⟩ with hc
      cases henv : env c.id with
      | error e => rw [henv] at h; simp at h
      | ok blocks =>
        rw [henv] at h
        obtain ⟨rest, hrest⟩ := ih (step + 1) _ _ out h
        exact ⟨blocks.map (fun b => (b, c.depth)) ++ rest,
          by rw [hrest, List.append_assoc]⟩

/-- When every outstanding call either fetches an empty child list or
rejects with `E`, and at least one rejects, every completion order
ends the whole traversal with `.error E` (given enough fuel). -/
theorem runFetchAux_pending_error (env : String → Except NotionErr (List NotionBlock))
    (sched : Nat → Nat) (E : NotionErr) :
    ∀ fuel step pending acc,
      pending.length ≤ fuel → pending ≠ [] →
      (∀ c ∈ pending, env c.id = .error E ∨ env c.id = .ok []) →
      (∃ c ∈ pending, env c.id = .error E) →
      runFetchAux env sched fuel step pending acc = some (.error E) := by
  intro fuel
  induction fuel with
  | zero =>
    intro step pending acc hlen hne _ _
    cases pending with
    | nil => exact absurd rfl hne
    | cons p ps => simp at hlen
  | succ fuel ih =>
    intro step pending acc hlen hne hall hex
    cases pending with
    | nil => exact absurd rfl hne
    | cons p ps =>
      simp only [runFetchAux]
      set i := sched step % (p :: ps).length with hi
      set c := (p :: ps).getD i ⟨"", 0⟩ with hc
      have hilt : i < (p :: ps).length := Nat.mod_lt _ (by simp)
      have hcget : c = (p :: ps)[i] := by rw [hc, List.getD_eq_getElem _ _ hilt]
      have hcmem : c ∈ p :: ps := hcget ▸ List.getElem_mem hilt
      cases henv : env c.id with
      | error e =>
        rcases hall c hcmem with h | h
        · rw [henv] at h
          rw [(Except.error.inj h : e = E)]
        · rw [henv] at h; exact absurd h (by simp)
      | ok blocks =>
        have hblocks : blocks = [] := by
          rcases hall c hcmem with h | h
          · rw [henv] at h; exact absurd h (by simp)
          · rw [henv] at h; exact Except.ok.inj h
        subst hblocks
        obtain ⟨c', hc'mem, hc'err⟩ := hex
        have hc'ne : c' ≠ c := by
          intro hcontra
          rw [hcontra, henv] at hc'err
          exact absurd hc'err (by simp)
        have hc'rem : c' ∈ (p :: ps).take i ++ (p :: ps).drop (i + 1) := by
          rcases mem_take_drop_or_eq (p :: ps) i hilt c' hc'mem with h | h
          · exact absurd (h.trans hcget.symm) hc'ne
          · exact h
        have hsub : ∀ x, x ∈ (p :: ps).take i ++ (p :: ps).drop (i + 1) → x ∈ p :: ps := by
          intro x hx
          rcases List.mem_append.mp hx with h | h
          · exact List.take_subset _ _ h
          · exact List.drop_subset _ _ h
        have hlen' : ((p :: ps).take i ++ (p :: ps).drop (i + 1)).length ≤ fuel := by
          rw [List.length_append, List.length_take, List.length_drop]
          simp only [List.length_cons] at hlen hilt ⊢
          omega
        have happly := ih (step + 1)
          ((p :: ps).take i ++ (p :: ps).drop (i + 1))
          (acc ++ List.map (fun b => (b, c.depth)) [])
          hlen' (List.ne_nil_of_mem hc'rem)
          (fun x hx => hall x (hsub x hx)) ⟨c', hc'rem, hc'err⟩
        simpa [blocksToRecurse] using happly

/-! ## Claims about the subtree fetcher's ordering and failure mode -/

/-- Claim C1 does not hold of the code: on the tree
`root → [a, b]`, `a → [a1]`, `b → [b1]`, the shared-array traversal
emits `a1` before `b1` when `a`'s child fetch resolves first, and
`b1` before `a1` when `b`'s resolves first — the output ordering
depends on the completion order of the concurrently launched sibling
fetches, not on the tree structure alone. -/
theorem fetch_order_depends_on_completion :
    fetchBlocksRecursive envTwoSubtrees schedFIFO 10 "root"
        = some (.ok [(blkA, 0), (blkB, 0), (blkA1, 1), (blkB1, 1)])
    ∧ fetchBlocksRecursive envTwoSubtrees schedLate 10 "root"
        = some (.ok [(blkA, 0), (blkB, 0), (blkB1, 1), (blkA1, 1)])
    ∧ ([(blkA, 0), (blkB, 0), (blkA1, 1), (blkB1, 1)] : List (NotionBlock × Nat))
        ≠ [(blkA, 0), (blkB, 0), (blkB1, 1), (blkA1, 1)] :=
  ⟨rfl, rfl, by decide⟩

/-- Claim C2 does not hold of the code: on the same tree, even under
the completion order that resolves fetches in launch order, the
shared-array traversal places `a`'s subtree after the whole sibling
level (`a, b, a1, b1`), not immediately after `a` as the specified
pre-order (`a, a1, b, b1`) requires. -/
theorem fetch_not_preorder :
    fetchBlocksRecursive envTwoSubtrees schedFIFO 10 "root"
        = some (.ok [(blkA, 0), (blkB, 0), (blkA1, 1), (blkB1, 1)])
    ∧ specPreorderFetch envTwoSubtrees 10 "root" 0
        = [(blkA, 0), (blkA1, 1), (blkB, 0), (blkB1, 1)]
    ∧ ([(blkA, 0), (blkB, 0), (blkA1, 1), (blkB1, 1)] : List (NotionBlock × Nat))
        ≠ [(blkA, 0), (blkA1, 1), (blkB, 0), (blkB1, 1)] :=
  ⟨rfl, rfl, by decide⟩

/-- Execution demands success: a traversal that completes with a
result had every concurrently launched subtree fetch succeed — if any
launched fetch fails, no completion order and no fuel yields an `.ok`
result. -/
theorem runFetchAux_launched_ok
    (env : String → Except NotionErr (List NotionBlock)) (sched : Nat → Nat) :
    ∀ fuel step pending acc out,
      runFetchAux env sched fuel step pending acc = some (.ok out) →
      (∀ (b : NotionBlock) (d : Nat), (b, d) ∈ acc → shouldRecurse b = true →
        (⟨b.id, d + 1⟩ : FetchCall) ∈ pending ∨ ∃ blocks, env b.id = .ok blocks) →
      ∀ (b : NotionBlock) (d : Nat), (b, d) ∈ out → shouldRecurse b = true →
        ∃ blocks, env b.id = .ok blocks := by
  intro fuel
  induction fuel with
  | zero =>
    intro step pending acc out h ha
    cases pending with
    | nil =>
      have hacc : acc = out := by simpa [runFetchAux] using h
      subst hacc
      intro b d hbd hrec
      rcases ha b d hbd hrec with hpend | hdone
      · simp at hpend
      · exact hdone
    | cons p ps => simp [runFetchAux] at h
  | succ fuel ih =>
    intro step pending acc out h ha
    cases pending with
    | nil =>
      have hacc : acc = out := by simpa [runFetchAux] using h
      subst hacc
      intro b d hbd hrec
      rcases ha b d hbd hrec with hpend | hdone
      · simp at hpend
      · exact hdone
    | cons p ps =>
      simp only [runFetchAux] at h
      set i := sched step % (p :: ps).length with hi
      set c := (p :: ps).getD i ⟨"", 0⟩ with hc
      have hilt : i < (p :: ps).length := Nat.mod_lt _ (by simp)
      have hcget : c = (p :: ps)[i] := by rw [hc, List.getD_eq_getElem _ _ hilt]
      cases henv : env c.id with
      | error e => rw [henv] at h; simp at h
      | ok blocks =>
        rw [henv] at h
        refine ih (step + 1) _ _ out h ?_
        intro b d hbd hrec
        rcases List.mem_append.mp hbd with hbd | hbd
        · rcases ha b d hbd hrec with hpend | hdone
          · rcases mem_take_drop_or_eq (p :: ps) i hilt _ hpend with heq | hrem
            · have hceq : c = (⟨b.id, d + 1⟩ : FetchCall) := hcget.trans heq.symm
              refine Or.inr ⟨blocks, ?_⟩
              rw [← show c.id = b.id from by rw [hceq]]
              exact henv
            · exact Or.inl (List.mem_append_left _ hrem)
          · exact Or.inr hdone
        · obtain ⟨b2, hb2, heq⟩ := List.mem_map.mp hbd
          have h1 : b2 = b := congrArg Prod.fst heq
          have h2 : c.depth = d := congrArg Prod.snd heq
          subst h1
          refine Or.inl (List.mem_append_right _ ?_)
          refine List.mem_map.mpr ⟨b2, List.mem_filter.mpr ⟨hb2, hrec⟩, ?_⟩
          rw [h2]

/-- The concrete three-sibling instance of the fail-fast claim, for
every completion order. -/
theorem fail_fast_concrete (sched : Nat → Nat) :
    fetchBlocksRecursive envOneFailing sched 5 "root" = some (.error .notFound) := by
  show runFetchAux envOneFailing sched (4 + 1) 0 [⟨"root", 0⟩] [] = some (.error .notFound)
  simp only [runFetchAux]
  have h0 : sched 0 % ([(⟨"root", 0⟩ : FetchCall)]).length = 0 := Nat.mod_one _
  rw [h0]
  have henv : envOneFailing "root" = .ok [blkA, blkB, blkC] := rfl
  simp only [List.getD_cons_zero, henv, List.take_nil, List.drop_succ_cons,
    List.drop_nil, List.nil_append]
  have hrec : (blocksToRecurse [blkA, blkB, blkC]).map
      (fun b => (⟨b.id, (0 : Nat) + 1⟩ : FetchCall))
      = [⟨"a", 1⟩, ⟨"b", 1⟩, ⟨"c", 1⟩] := rfl
  rw [hrec, List.take_zero, List.nil_append, List.nil_append]
  refine runFetchAux_pending_error envOneFailing sched .notFound 4 (0 + 1)
    [⟨"a", 1⟩, ⟨"b", 1⟩, ⟨"c", 1⟩] _ (by simp) (by simp) ?_ ?_
  · intro c hc
    rcases List.mem_cons.mp hc with rfl | hc
    · exact Or.inr rfl
    rcases List.mem_cons.mp hc with rfl | hc
    · exact Or.inr rfl
    rcases List.mem_cons.mp hc with rfl | hc
    · exact Or.inl rfl
    · simp at hc
  · exact ⟨⟨"c", 1⟩, by simp, rfl⟩

/-- Claim C7: if a concurrently launched sibling-subtree fetch fails,
the whole traversal rejects with that same error and no (partial)
traversal result reaches the caller: on a page with three concurrent
sibling subtrees of which one rejects with `NotFoundError`, every
completion order rejects the whole call with exactly that error; and
in general a traversal can only complete with a result when every
launched subtree fetch succeeded. -/
theorem fail_fast_rejects :
    (∀ sched : Nat → Nat,
      fetchBlocksRecursive envOneFailing sched 5 "root" = some (.error .notFound))
    ∧ ∀ (env : String → Except NotionErr (List NotionBlock)) (sched : Nat → Nat)
        (fuel : Nat) (rootId : String) (out : List (NotionBlock × Nat)),
        fetchBlocksRecursive env sched fuel rootId = some (.ok out) →
        ∀ (b : NotionBlock) (d : Nat), (b, d) ∈ out → shouldRecurse b = true →
          ∃ blocks, env b.id = .ok blocks := by
  constructor
  · intro sched
    exact fail_fast_concrete sched
  · intro env sched fuel rootId out hrun
    exact runFetchAux_launched_ok env sched fuel 0 [⟨rootId, 0⟩] [] out hrun
      (by intro b d hbd; simp at hbd)

/-- Witness for claim C7: under the launch-order completion schedule
the failing three-sibling page rejects with `NotFoundError`, and the
completed chain traversal certifies that its recursable entry's fetch
succeeded. -/
theorem fail_fast_rejects_witness :
    fetchBlocksRecursive envOneFailing schedFIFO 5 "root" = some (.error .notFound)
    ∧ ∃ blocks, envChain "a" = .ok blocks :=
  ⟨fail_fast_rejects.1 schedFIFO,
    fail_fast_rejects.2 envChain schedFIFO 10 "root" [(blkA, 0), (blkA1, 1)] rfl
      blkA 0 (by decide) rfl⟩

/-- Depth bookkeeping of the simulation: when the id graph is graded
by a depth function `δ`, every outstanding call carries the `δ`-depth
of its id and every emitted entry is tagged with the `δ`-depth of its
parent, i.e. its own `δ`-depth minus one. -/
theorem runFetchAux_depth (env : String → Except NotionErr (List NotionBlock))
    (sched : Nat → Nat) (δ : String → Nat)
    (hgraded : ∀ id blocks, env id = .ok blocks → ∀ b ∈ blocks, δ b.id = δ id + 1) :
    ∀ fuel step pending acc out,
      (∀ c ∈ pending, δ c.id = c.depth) →
      (∀ (b : NotionBlock) (d : Nat), (b, d) ∈ acc → δ b.id = d + 1) →
      runFetchAux env sched fuel step pending acc = some (.ok out) →
      ∀ (b : NotionBlock) (d : Nat), (b, d) ∈ out → δ b.id = d + 1 := by
  intro fuel
  induction fuel with
  | zero =>
    intro step pending acc out hp ha h
    cases pending with
    | nil =>
      have hacc : acc = out := by simpa [runFetchAux] using h
      exact fun b d hbd => ha b d (hacc ▸ hbd)
    | cons p ps => simp [runFetchAux] at h
  | succ fuel ih =>
    intro step pending acc out hp ha h
    cases pending with
    | nil =>
      have hacc : acc = out := by simpa [runFetchAux] using h
      exact fun b d hbd => ha b d (hacc ▸ hbd)
    | cons p ps =>
      simp only [runFetchAux] at h
      set i := sched step % (p :: ps).length with hi
      set c := (p :: ps).getD i ⟨"", 0⟩ with hc
      have hilt : i < (p :: ps).length := Nat.mod_lt _ (by simp)
      have hcget : c = (p :: ps)[i] := by rw [hc, List.getD_eq_getElem _ _ hilt]
      have hcmem : c ∈ p :: ps := hcget ▸ List.getElem_mem hilt
      cases henv : env c.id with
      | error e => rw [henv] at h; simp at h
      | ok blocks =>
        rw [henv] at h
        refine ih (step + 1) _ _ out ?_ ?_ h
        · intro x hx
          rcases List.mem_append.mp hx with hx | hx
          · rcases List.mem_append.mp hx with hx' | hx'
            · exact hp x (List.take_subset _ _ hx')
            · exact hp x (List.drop_subset _ _ hx')
          · obtain ⟨b, hb, rfl⟩ := List.mem_map.mp hx
            have hbmem : b ∈ blocks := (List.mem_filter.mp hb).1
            have hgr := hgraded c.id blocks henv b hbmem
            have hd : δ b.id = c.depth + 1 := by rw [hgr, hp c hcmem]
            simpa using hd
        · intro b d hbd
          rcases List.mem_append.mp hbd with hbd | hbd
          · exact ha b d hbd
          · obtain ⟨b2, hb2, heq⟩ := List.mem_map.mp hbd
            have h1 : b2 = b := congrArg Prod.fst heq
            have h2 : c.depth = d := congrArg Prod.snd heq
            subst h1
            rw [← h2, hgraded c.id blocks henv b2 hb2, hp c hcmem]

/-- Claim C6: when the remote store is an actual tree — its id graph
graded by a depth function `δ` with the traversal root at `δ`-depth 0
— every completed traversal tags the root's direct blocks with depth 0
and tags each entry that is a direct child of another entry with the
parent entry's depth plus 1.  (Depths are naturals, hence
non-negative.) -/
theorem depth_invariant (env : String → Except NotionErr (List NotionBlock))
    (sched : Nat → Nat) (fuel : Nat) (rootId : String)
    (out : List (NotionBlock × Nat)) (δ : String → Nat)
    (hδroot : δ rootId = 0)
    (hgraded : ∀ id blocks, env id = .ok blocks → ∀ b ∈ blocks, δ b.id = δ id + 1)
    (hrun : fetchBlocksRecursive env sched fuel rootId = some (.ok out)) :
    (∀ (b : NotionBlock) (d : Nat), (b, d) ∈ out →
        ∀ blocks, env rootId = .ok blocks → b ∈ blocks → d = 0)
    ∧ (∀ (b : NotionBlock) (db : Nat) (c : NotionBlock) (dc : Nat) (blocksb : List NotionBlock),
        (b, db) ∈ out → (c, dc) ∈ out →
        env b.id = .ok blocksb → c ∈ blocksb → dc = db + 1) := by
  have key : ∀ (b : NotionBlock) (d : Nat), (b, d) ∈ out → δ b.id = d + 1 := by
    refine runFetchAux_depth env sched δ hgraded fuel 0 [⟨rootId, 0⟩] [] out ?_ ?_ hrun
    · intro x hx
      rcases List.mem_cons.mp hx with rfl | hx
      · simpa using hδroot
      · simp at hx
    · intro b d hbd; simp at hbd
  constructor
  · intro b d hbd blocks hroot hb
    have h1 := key b d hbd
    have h2 := hgraded rootId blocks hroot b hb
    omega
  · intro b db c dc blocksb hbd hcd henvb hc
    have h1 := key b db hbd
    have h2 := key c dc hcd
    have h3 := hgraded b.id blocksb henvb c hc
    omega

/-- Witness for claim C6: on the chain `root → a → a1`, the completed
traversal tags `a1` with depth `0 + 1` below its parent entry `a`. -/
theorem depth_invariant_witness : (1 : Nat) = 0 + 1 := by
  have h := depth_invariant envChain schedFIFO 10 "root" [(blkA, 0), (blkA1, 1)]
    (fun s => if s = "root" then 0 else if s = "a" then 1 else 2) rfl
    ?hg rfl
  · exact h.2 blkA 0 blkA1 1 [blkA1] (by decide) (by decide) rfl (by decide)
  case hg =>
    intro id blocks h b hb
    unfold envChain at h
    split_ifs at h with h1 h2
    · subst h1
      have hbl : blocks = [blkA] := (Except.ok.inj h).symm
      subst hbl
      have : b = blkA := by simpa using hb
      subst this
      decide
    · subst h2
      have hbl : blocks = [blkA1] := (Except.ok.inj h).symm
      subst hbl
      have : b = blkA1 := by simpa using hb
      subst this
      decide
    · have hbl : blocks = [] := (Except.ok.inj h).symm
      subst hbl
      simp at hb

/-- Expansion completeness of the simulation: in a completed run,
every emitted entry whose block satisfies the recursion predicate has
all of its fetched children in the output, tagged one level deeper. -/
theorem runFetchAux_children_complete
    (env : String → Except NotionErr (List NotionBlock)) (sched : Nat → Nat) :
    ∀ fuel step pending acc out,
      runFetchAux env sched fuel step pending acc = some (.ok out) →
      (∀ (b : NotionBlock) (d : Nat), (b, d) ∈ acc → shouldRecurse b = true →
        (⟨b.id, d + 1⟩ : FetchCall) ∈ pending
        ∨ ∀ blocks, env b.id = .ok blocks → ∀ x ∈ blocks, (x, d + 1) ∈ out) →
      ∀ (b : NotionBlock) (d : Nat), (b, d) ∈ out → shouldRecurse b = true →
        ∀ blocks, env b.id = .ok blocks → ∀ x ∈ blocks, (x, d + 1) ∈ out := by
  intro fuel
  induction fuel with
  | zero =>
    intro step pending acc out h ha
    cases pending with
    | nil =>
      have hacc : acc = out := by simpa [runFetchAux] using h
      subst hacc
      intro b d hbd hrec
      rcases ha b d hbd hrec with hpend | hdone
      · simp at hpend
      · exact hdone
    | cons p ps => simp [runFetchAux] at h
  | succ fuel ih =>
    intro step pending acc out h ha
    cases pending with
    | nil =>
      have hacc : acc = out := by simpa [runFetchAux] using h
      subst hacc
      intro b d hbd hrec
      rcases ha b d hbd hrec with hpend | hdone
      · simp at hpend
      · exact hdone
    | cons p ps =>
      simp only [runFetchAux] at h
      set i := sched step % (p :: ps).length with hi
      set c := (p :: ps).getD i ⟨"", 0⟩ with hc
      have hilt : i < (p :: ps).length := Nat.mod_lt _ (by simp)
      have hcget : c = (p :: ps)[i] := by rw [hc, List.getD_eq_getElem _ _ hilt]
      cases henv : env c.id with
      | error e => rw [henv] at h; simp at h
      | ok blocks =>
        rw [henv] at h
        have hout_sub : ∀ y ∈ acc ++ blocks.map (fun b => (b, c.depth)), y ∈ out := by
          obtain ⟨rest, hrest⟩ := runFetchAux_prefix env sched fuel (step + 1) _ _ out h
          intro y hy
          rw [hrest]
          exact List.mem_append_left _ hy
        refine ih (step + 1) _ _ out h ?_
        intro b d hbd hrec
        rcases List.mem_append.mp hbd with hbd | hbd
        · rcases ha b d hbd hrec with hpend | hdone
          · rcases mem_take_drop_or_eq (p :: ps) i hilt _ hpend with heq | hrem
            · have hceq : c = (⟨b.id, d + 1⟩ : FetchCall) := hcget.trans heq.symm
              have hdepth : c.depth = d + 1 := by rw [hceq]
              refine Or.inr ?_
              intro bl henvb x hx
              have henvc : env c.id = .ok bl := by rw [hceq]; exact henvb
              have hbl : bl = blocks := by
                rw [henv] at henvc
                exact (Except.ok.inj henvc).symm
              subst hbl
              refine hout_sub _ (List.mem_append_right _ ?_)
              exact List.mem_map.mpr ⟨x, hx, by rw [hdepth]⟩
            · exact Or.inl (List.mem_append_left _ hrem)
          · exact Or.inr hdone
        · obtain ⟨b2, hb2, heq⟩ := List.mem_map.mp hbd
          have h1 : b2 = b := congrArg Prod.fst heq
          have h2 : c.depth = d := congrArg Prod.snd heq
          subst h1
          refine Or.inl (List.mem_append_right _ ?_)
          refine List.mem_map.mpr ⟨b2, List.mem_filter.mpr ⟨hb2, hrec⟩, ?_⟩
          rw [h2]

/-- Provenance of the simulation's output: every emitted entry is a
direct block of the traversal root, or a fetched child of an entry
that also appears in the output and satisfies the recursion
predicate. -/
theorem runFetchAux_origin
    (env : String → Except NotionErr (List NotionBlock)) (sched : Nat → Nat)
    (rootId : String) :
    ∀ fuel step pending acc out,
      runFetchAux env sched fuel step pending acc = some (.ok out) →
      (∀ c0 ∈ pending, (c0 : FetchCall).id = rootId
        ∨ ∃ (f : NotionBlock) (df : Nat), (f, df) ∈ acc ∧ shouldRecurse f = true
            ∧ c0.id = f.id) →
      (∀ (x : NotionBlock) (dx : Nat), (x, dx) ∈ acc →
        (∃ bl, env rootId = .ok bl ∧ x ∈ bl)
        ∨ ∃ (f : NotionBlock) (df : Nat) (bl : List NotionBlock),
            (f, df) ∈ acc ∧ shouldRecurse f = true ∧ env f.id = .ok bl ∧ x ∈ bl) →
      ∀ (x : NotionBlock) (dx : Nat), (x, dx) ∈ out →
        (∃ bl, env rootId = .ok bl ∧ x ∈ bl)
        ∨ ∃ (f : NotionBlock) (df : Nat) (bl : List NotionBlock),
            (f, df) ∈ out ∧ shouldRecurse f = true ∧ env f.id = .ok bl ∧ x ∈ bl := by
  intro fuel
  induction fuel with
  | zero =>
    intro step pending acc out h hp ha
    cases pending with
    | nil =>
      have hacc : acc = out := by simpa [runFetchAux] using h
      subst hacc
      exact ha
    | cons p ps => simp [runFetchAux] at h
  | succ fuel ih =>
    intro step pending acc out h hp ha
    cases pending with
    | nil =>
      have hacc : acc = out := by simpa [runFetchAux] using h
      subst hacc
      exact ha
    | cons p ps =>
      simp only [runFetchAux] at h
      set i := sched step % (p :: ps).length with hi
      set c := (p :: ps).getD i ⟨"", 0⟩ with hc
      have hilt : i < (p :: ps).length := Nat.mod_lt _ (by simp)
      have hcget : c = (p :: ps)[i] := by rw [hc, List.getD_eq_getElem _ _ hilt]
      have hcmem : c ∈ p :: ps := hcget ▸ List.getElem_mem hilt
      cases henv : env c.id with
      | error e => rw [henv] at h; simp at h
      | ok blocks =>
        rw [henv] at h
        refine ih (step + 1) _ _ out h ?_ ?_
        · intro c0 hc0
          rcases List.mem_append.mp hc0 with hc0 | hc0
          · have hc0mem : c0 ∈ p :: ps := by
              rcases List.mem_append.mp hc0 with h' | h'
              · exact List.take_subset _ _ h'
              · exact List.drop_subset _ _ h'
            rcases hp c0 hc0mem with hl | ⟨f, df, hf, hsr, hcid⟩
            · exact Or.inl hl
            · exact Or.inr ⟨f, df, List.mem_append_left _ hf, hsr, hcid⟩
          · obtain ⟨b2, hb2, heq⟩ := List.mem_map.mp hc0
            have hb2' := List.mem_filter.mp hb2
            refine Or.inr ⟨b2, c.depth, ?_, hb2'.2, (congrArg FetchCall.id heq).symm⟩
            exact List.mem_append_right _ (List.mem_map.mpr ⟨b2, hb2'.1, rfl⟩)
        · intro x dx hx
          rcases List.mem_append.mp hx with hx | hx
          · rcases ha x dx hx with hl | ⟨f, df, bl, hf, hsr, henvf, hxbl⟩
            · exact Or.inl hl
            · exact Or.inr ⟨f, df, bl, List.mem_append_left _ hf, hsr, henvf, hxbl⟩
          · obtain ⟨x2, hx2, heq⟩ := List.mem_map.mp hx
            have h1 : x2 = x := congrArg Prod.fst heq
            subst h1
            rcases hp c hcmem with hl | ⟨f, df, hf, hsr, hcid⟩
            · refine Or.inl ⟨blocks, ?_, hx2⟩
              rw [← hl]
              exact henv
            · refine Or.inr ⟨f, df, blocks, List.mem_append_left _ hf, hsr, ?_, hx2⟩
              rw [← hcid]
              exact henv

/-- Case analysis of the concrete opaque-child store used by the
boundary witness. -/
theorem envOpaqueChild_cases (i : String) (bl : List NotionBlock)
    (h : envOpaqueChild i = .ok bl) :
    (i = "root" ∧ bl = [blkCP]) ∨ (i = "cp" ∧ bl = [blkX0]) ∨ bl = [] := by
  unfold envOpaqueChild at h
  split_ifs at h with h1 h2
  · exact Or.inl ⟨h1, (Except.ok.inj h).symm⟩
  · exact Or.inr (Or.inl ⟨h2, (Except.ok.inj h).symm⟩)
  · exact Or.inr (Or.inr (Except.ok.inj h).symm)

/-- Claim C5: for a well-formed tree store (each block is the child of
exactly one id, blocks are determined by their id, no block carries
the root's id), a completed traversal contains a node's children iff
the node's `has_children` flag is set and its kind is not an opaque
boundary (`child_page`/`child_database`): the children of every
emitted recursable entry all appear one level deeper, and no fetched
child of an emitted non-recursable entry — in particular of an opaque
child page or child database, even with `has_children` set — appears
anywhere in the result. -/
theorem boundary_non_expansion
    (env : String → Except NotionErr (List NotionBlock)) (sched : Nat → Nat)
    (fuel : Nat) (rootId : String) (out : List (NotionBlock × Nat))
    (hrun : fetchBlocksRecursive env sched fuel rootId = some (.ok out))
    (huniq : ∀ i1 i2 bl1 bl2 (x : NotionBlock), env i1 = .ok bl1 → env i2 = .ok bl2 →
        x ∈ bl1 → x ∈ bl2 → i1 = i2)
    (hid : ∀ i1 i2 bl1 bl2 (x y : NotionBlock), env i1 = .ok bl1 → env i2 = .ok bl2 →
        x ∈ bl1 → y ∈ bl2 → x.id = y.id → x = y)
    (hroot : ∀ i bl (x : NotionBlock), env i = .ok bl → x ∈ bl → x.id ≠ rootId) :
    (∀ (b : NotionBlock) (d : Nat), (b, d) ∈ out → shouldRecurse b = true →
        ∀ blocks, env b.id = .ok blocks → ∀ x ∈ blocks, (x, d + 1) ∈ out)
    ∧ (∀ (b : NotionBlock) (d : Nat), (b, d) ∈ out → shouldRecurse b = false →
        ∀ blocks, env b.id = .ok blocks → ∀ x ∈ blocks, ∀ dx, (x, dx) ∉ out) := by
  have hcomplete := runFetchAux_children_complete env sched fuel 0 [⟨rootId, 0⟩] [] out
    hrun (by intro b d hbd; simp at hbd)
  have horigin := runFetchAux_origin env sched rootId fuel 0 [⟨rootId, 0⟩] [] out hrun
    (by
      intro c0 hc0
      rcases List.mem_cons.mp hc0 with rfl | hc0
      · exact Or.inl rfl
      · simp at hc0)
    (by intro x dx hx; simp at hx)
  have hchild : ∀ (y : NotionBlock) (dy : Nat), (y, dy) ∈ out →
      ∃ iy bly, env iy = .ok bly ∧ y ∈ bly := by
    intro y dy hy
    rcases horigin y dy hy with ⟨bl0, h0, hy0⟩ | ⟨f, df, bl0, _, _, h0, hy0⟩
    · exact ⟨rootId, bl0, h0, hy0⟩
    · exact ⟨f.id, bl0, h0, hy0⟩
  refine ⟨hcomplete, ?_⟩
  intro b d hbd hsrF blocks henvb x hx dx hxout
  rcases horigin x dx hxout with ⟨bl0, h0, hx0⟩ | ⟨f, df, bl0, hfout, hsrf, h0, hx0⟩
  · have hbid : b.id = rootId := huniq b.id rootId blocks bl0 x henvb h0 hx hx0
    obtain ⟨ib, blb, hib, hbblb⟩ := hchild b d hbd
    exact hroot ib blb b hib hbblb hbid
  · have hfb : f.id = b.id := huniq f.id b.id bl0 blocks x h0 henvb hx0 hx
    obtain ⟨i2, bl2, h2, hf2⟩ := hchild f df hfout
    obtain ⟨i3, bl3, h3, hb3⟩ := hchild b d hbd
    have hfeqb : f = b := hid i2 i3 bl2 bl3 f b h2 h3 hf2 hb3 hfb
    rw [hfeqb, hsrF] at hsrf
    exact Bool.false_ne_true hsrf

/-- Witness for claim C5: on a page whose only block is an opaque
child page `cp` with `has_children = true` and a nested block `x0`,
the completed traversal surfaces `cp` as a leaf and `x0` never
appears. -/
theorem boundary_non_expansion_witness :
    ((blkX0, 1) : NotionBlock × Nat) ∉ [((blkCP, 0) : NotionBlock × Nat)] := by
  have h := boundary_non_expansion envOpaqueChild schedFIFO 10 "root" [(blkCP, 0)]
    rfl ?u ?i ?r
  · exact h.2 blkCP 0 (by decide) rfl [blkX0] rfl blkX0 (by decide) 1
  case u =>
    intro i1 i2 bl1 bl2 x h1 h2 hx1 hx2
    rcases envOpaqueChild_cases i1 bl1 h1 with ⟨hi1, hbl1⟩ | ⟨hi1, hbl1⟩ | hbl1 <;>
      rcases envOpaqueChild_cases i2 bl2 h2 with ⟨hi2, hbl2⟩ | ⟨hi2, hbl2⟩ | hbl2 <;>
      subst_vars <;> simp_all [blkCP, blkX0]
  case i =>
    intro i1 i2 bl1 bl2 x y h1 h2 hx1 hx2 hxy
    rcases envOpaqueChild_cases i1 bl1 h1 with ⟨hi1, hbl1⟩ | ⟨hi1, hbl1⟩ | hbl1 <;>
      rcases envOpaqueChild_cases i2 bl2 h2 with ⟨hi2, hbl2⟩ | ⟨hi2, hbl2⟩ | hbl2 <;>
      subst_vars <;> simp_all [blkCP, blkX0]
  case r =>
    intro i bl x h1 hx1
    rcases envOpaqueChild_cases i bl h1 with ⟨hi1, hbl1⟩ | ⟨hi1, hbl1⟩ | hbl1 <;>
      subst_vars <;> simp_all [blkCP, blkX0]
